import Mathlib

/-!
Shallow embedding of `src/item-bitmap.c` (pg_check): a per-page item bitmap
with a cumulative page-offset table, chunked growable byte buffer, heap/index
page population, bounds-checked bit accessors, pairwise comparison and base64
debug serialization.

Machine integers of the C source are modelled as `Nat`; all values involved
are non-negative in every reachable state considered here, and no quantity
approaches `INT_MAX`, so `Nat` arithmetic agrees with the C `int` arithmetic.
Byte buffers (`char *`) are modelled as `List Nat` of byte values, and the
`int *` page-offset table as `List Nat`.
-/

set_option maxRecDepth 40000

/-- `#define PALLOC_CHUNK 1024` — the fixed allocation chunk. -/
def PALLOC_CHUNK : Nat := 1024

/-- Modelled from the spec: `MaxHeapTuplesPerPage` comes from the host
(PostgreSQL) headers, outside this source tree.  The spec describes it as "an
externally supplied hard ceiling reflecting the host page format's maximum
slot count — e.g. ~290 for a small fixed page size"; 291 is the host's value
for 8kB pages.  Only `MaxHeapTuplesPerPage ≤ 8 * PALLOC_CHUNK` matters below. -/
def MaxHeapTuplesPerPage : Nat := 291

/-- The `item_bitmap` struct: declared in `item-bitmap.h` (not under `src/`),
but every field and its meaning is fully determined by its uses in
`item-bitmap.c`: `npages`, the cumulative offset table `pages`, the valid
byte count `nbytes`, the allocated capacity `maxBytes`, and the bit buffer
`data`. -/
structure ItemBitmap where
  npages : Nat
  pages : List Nat
  nbytes : Nat
  maxBytes : Nat
  data : List Nat
deriving DecidableEq

/-- `bitmap_init` (item-bitmap.c:26-48).  The C `palloc`s the offset table
without initialising it; entries are modelled as 0 (no claim reads an entry
before it is registered).  The data buffer is explicitly `memset` to 0. -/
def bitmap_init (npages : Nat) : ItemBitmap :=
  { npages := npages
    pages := List.replicate npages 0
    nbytes := 0
    maxBytes := PALLOC_CHUNK * (npages / PALLOC_CHUNK / 8 + 1)
    data := List.replicate (PALLOC_CHUNK * (npages / PALLOC_CHUNK / 8 + 1)) 0 }

/-- `bitmap_copy` (item-bitmap.c:51-73): copies `npages`, `nbytes`,
`maxBytes` and the offset table (`memcpy`), allocates a fresh data buffer of
the same capacity and zeroes it (`memset`); bit data is never copied. -/
def bitmap_copy (src : ItemBitmap) : ItemBitmap :=
  { npages := src.npages
    pages := src.pages
    nbytes := src.nbytes
    maxBytes := src.maxBytes
    data := List.replicate src.maxBytes 0 }

/-- `bitmap_reset` (item-bitmap.c:76-78): zeroes the data buffer only. -/
def bitmap_reset (bitmap : ItemBitmap) : ItemBitmap :=
  { bitmap with data := List.replicate bitmap.maxBytes 0 }

/-- Modelled from the spec: the `GetBitmapIndex` macro is defined in
`item-bitmap.h`, which is not part of this source tree.  Spec §3: "Global bit
index for item `j` on page `p` is `(p == 0 ? 0 : page_item_offsets[p-1]) + j`". -/
def GetBitmapIndex (bitmap : ItemBitmap) (page item : Nat) : Nat :=
  (if page = 0 then 0 else bitmap.pages.getD (page - 1) 0) + item

/-- The growth step of `bitmap_add_page` (item-bitmap.c:104-109): if the new
`nbytes` exceeds `maxBytes`, extend capacity by one `PALLOC_CHUNK`; the
`repalloc` keeps the old `maxBytes` bytes and the `memset` zeroes exactly
the freshly added chunk. -/
def bitmap_grow (bitmap : ItemBitmap) : ItemBitmap :=
  if bitmap.nbytes > bitmap.maxBytes then
    { bitmap with
      maxBytes := bitmap.maxBytes + PALLOC_CHUNK
      data := bitmap.data ++ List.replicate PALLOC_CHUNK 0 }
  else
    bitmap

/-- `bitmap_add_page` (item-bitmap.c:92-111): records the cumulative item
count for `page` (`items` plus the previous entry, or `items` alone for page
0), recomputes `nbytes = (pages[page] + 7) / 8` from the just-written entry,
then grows the buffer if needed. -/
def bitmap_add_page (bitmap : ItemBitmap) (page items : Nat) : ItemBitmap :=
  bitmap_grow
    { bitmap with
      pages := bitmap.pages.set page
        (if page = 0 then items else items + bitmap.pages.getD (page - 1) 0)
      nbytes := ((bitmap.pages.set page
        (if page = 0 then items
         else items + bitmap.pages.getD (page - 1) 0)).getD page 0 + 7) / 8 }

/-- `bitmap_set_item` (item-bitmap.c:178-210).  Returns the updated bitmap
together with the C function's `bool` result.  The clear branch stores
`data[byteIdx] & ~(1 << bitIdx)`; on the 8-bit `char` the complement mask is
`255 ^^^ (1 <<< bitIdx)`. -/
def bitmap_set_item (bitmap : ItemBitmap) (page item : Nat) (state : Bool) :
    ItemBitmap × Bool :=
  if page ≥ bitmap.npages then
    (bitmap, false)
  else if GetBitmapIndex bitmap page item / 8 > bitmap.nbytes then
    (bitmap, false)
  else if item ≥ bitmap.pages.getD page 0 then
    (bitmap, false)
  else if state then
    ({ bitmap with
       data := bitmap.data.set (GetBitmapIndex bitmap page item / 8)
         (bitmap.data.getD (GetBitmapIndex bitmap page item / 8) 0 |||
           (1 <<< (GetBitmapIndex bitmap page item % 8))) },
     true)
  else
    ({ bitmap with
       data := bitmap.data.set (GetBitmapIndex bitmap page item / 8)
         (bitmap.data.getD (GetBitmapIndex bitmap page item / 8) 0 &&&
           (255 ^^^ (1 <<< (GetBitmapIndex bitmap page item % 8)))) },
     true)

/-- `bitmap_get_item` (item-bitmap.c:213-235).  The final line of the C is
`return (bitmap->data[byteIdx] && (1 << bitIdx));` — a *logical* AND, i.e.
the conjunction of the two operands being nonzero, kept verbatim here. -/
def bitmap_get_item (bitmap : ItemBitmap) (page item : Nat) : Bool :=
  if page ≥ bitmap.npages then
    false
  else if GetBitmapIndex bitmap page item / 8 > bitmap.nbytes then
    false
  else if item ≥ bitmap.pages.getD page 0 then
    false
  else
    (bitmap.data.getD (GetBitmapIndex bitmap page item / 8) 0 != 0) &&
      ((1 <<< (GetBitmapIndex bitmap page item % 8)) != 0)

/-- Number of bits set among the low 8 bits of a byte: the inner
`for (j = 0; j < 8; j++)` loops of `bitmap_count` / `bitmap_compare`. -/
def popcount8 (x : Nat) : Nat :=
  (List.range 8).countP (fun j => x.testBit j)

/-- `bitmap_count` (item-bitmap.c:238-252). -/
def bitmap_count (bitmap : ItemBitmap) : Nat :=
  (List.range bitmap.nbytes).foldl
    (fun acc i => acc + popcount8 (bitmap.data.getD i 0)) 0

/-- `bitmap_compare` (item-bitmap.c:255-286).  On a page-count mismatch it
returns `MAX` of the two final cumulative entries; with equal page counts a
total-item mismatch only logs a warning and the byte-wise XOR diff proceeds,
looping over `bitmap_a->nbytes` (the `if diff != 0` guard does not change the
count and is dropped). -/
def bitmap_compare (bitmap_a bitmap_b : ItemBitmap) : Nat :=
  if bitmap_a.npages ≠ bitmap_b.npages then
    max (bitmap_a.pages.getD (bitmap_a.npages - 1) 0)
        (bitmap_b.pages.getD (bitmap_b.npages - 1) 0)
  else
    (List.range bitmap_a.nbytes).foldl
      (fun acc i =>
        acc + popcount8 ((bitmap_a.data.getD i 0) ^^^ (bitmap_b.data.getD i 0))) 0

/-- The `pages[npages - 1]` index computed (in C `int` arithmetic) by the
page-count-mismatch branch of `bitmap_compare` (item-bitmap.c:265-266); the
read is within the `pages` allocation iff `0 ≤ index < npages`. -/
def lastOffsetIndex (bitmap : ItemBitmap) : Int :=
  (bitmap.npages : Int) - 1

/-- One slot of a raw heap page, as far as `bitmap_add_heap_items` inspects
it (external host page format, spec §6): the line pointer's used flag
(`ItemIdIsUsed`) and the tuple header's heap-only flag
(`HeapTupleHeaderIsHeapOnly`). -/
structure HeapSlot where
  used : Bool
  heapOnly : Bool
deriving DecidableEq

/-- First pass of `bitmap_add_heap_items` (item-bitmap.c:125-131): set the
bit of every used slot, counting failed sets. -/
def heapFirstPass (bitmap : ItemBitmap) (nerrs : Nat) (page : Nat)
    (slots : List HeapSlot) (item : Nat) : ItemBitmap × Nat :=
  match slots with
  | [] => (bitmap, nerrs)
  | s :: rest =>
    if s.used then
      let r := bitmap_set_item bitmap page item true
      heapFirstPass r.1 (nerrs + if r.2 then 0 else 1) page rest (item + 1)
    else
      heapFirstPass bitmap nerrs page rest (item + 1)

/-- Second pass of `bitmap_add_heap_items` (item-bitmap.c:134-150): for every
slot whose tuple is heap-only, if its bit currently reads as set
(`bitmap_get_item`), clear it, counting failed clears. -/
def heapSecondPass (bitmap : ItemBitmap) (nerrs : Nat) (page : Nat)
    (slots : List HeapSlot) (item : Nat) : ItemBitmap × Nat :=
  match slots with
  | [] => (bitmap, nerrs)
  | s :: rest =>
    if s.heapOnly then
      if bitmap_get_item bitmap page item then
        let r := bitmap_set_item bitmap page item false
        heapSecondPass r.1 (nerrs + if r.2 then 0 else 1) page rest (item + 1)
      else
        heapSecondPass bitmap nerrs page rest (item + 1)
    else
      heapSecondPass bitmap nerrs page rest (item + 1)

/-- `bitmap_add_heap_items` (item-bitmap.c:114-154): register the page with
its observed slot count (`PageGetMaxOffsetNumber`, the length of the slot
list), then the two passes; returns the bitmap and the total error count. -/
def bitmap_add_heap_items (bitmap : ItemBitmap) (slots : List HeapSlot)
    (page : Nat) : ItemBitmap × Nat :=
  let b1 := bitmap_add_page bitmap page slots.length
  let r1 := heapFirstPass b1 0 page slots 0
  heapSecondPass r1.1 r1.2 page slots 0

/-- One slot of a raw index page, as far as `bitmap_add_index_items` inspects
it (external host page format, spec §6): the index tuple's target block
number (`BlockIdGetBlockNumber`) and its 1-based target position
(`ip_posid`). -/
structure IndexSlot where
  blkno : Nat
  posid : Nat
deriving DecidableEq

/-- `bitmap_add_index_items` (item-bitmap.c:157-175): for every slot, set the
bit at (target block, 1-based position − 1); the `page` argument (the index
page's own number) is never used.  Does not call `bitmap_add_page`. -/
def bitmap_add_index_items (bitmap : ItemBitmap) (slots : List IndexSlot)
    (page : Nat) : ItemBitmap × Nat :=
  match slots with
  | [] => (bitmap, 0)
  | s :: rest =>
    let r := bitmap_set_item bitmap s.blkno (s.posid - 1) true
    let rec0 := bitmap_add_index_items r.1 rest page
    (rec0.1, (if r.2 then 0 else 1) + rec0.2)

/-- The standard base64 alphabet string `_base64` (item-bitmap.c:386). -/
def b64alphabet : List Char :=
  "ABCDEFGHIJKLMNOPQRSTUVWXYZabcdefghijklmnopqrstuvwxyz0123456789+/".toList

/-- Character for a 6-bit value via the `_base64` table. -/
def b64char (k : Nat) : Char :=
  b64alphabet.getD k 'A'

/-- The 32-bit two's-complement pattern of the C `int` promotion of one
`char` byte of `data` (item-bitmap.c:393).  `data` is `const char *` and
`char` is signed on the reference platform, so a byte ≥ 0x80 is promoted
with sign extension: its `int` value is `byte - 256`, whose 32-bit pattern
is `0xFFFFFF00 + byte`; a byte < 0x80 is promoted to itself. -/
def signExtByte (d : Nat) : Nat :=
  if d < 128 then d else 4294967040 + d

/-- The loop of `base64` (item-bitmap.c:391-413).  `buf` is a `uint32`
accumulating bytes at positions `pos = 2,1,0` (shift `pos << 3`): each step
ORs in the sign-extended `int` promotion of the byte (`signExtByte`),
shifted and reduced to the 32-bit pattern (explicit `% 2^32`; on the
reference platform the negative-operand shift is the two's-complement
shift, so bytes ≥ 0x80 spill ones into the higher sextets of their group).
When the third byte lands, four sextet characters are emitted and the state
resets.  After the loop, a partial group emits the first two characters
and, only when `pos == 0` (two leftover bytes), a third — in the `pos == 1`
case the C writes `'\0'`, which terminates the result string there, so it
contributes no character. -/
def base64go (data : List Nat) (buf : Nat) (pos : Nat) : List Char :=
  match data with
  | [] =>
    if pos ≠ 2 then
      [b64char ((buf >>> 18) &&& 63), b64char ((buf >>> 12) &&& 63)] ++
        (if pos = 0 then [b64char ((buf >>> 6) &&& 63)] else [])
    else []
  | d :: rest =>
    let buf2 := buf ||| ((signExtByte d <<< (pos * 8)) % 4294967296)
    if pos = 0 then
      b64char ((buf2 >>> 18) &&& 63) :: b64char ((buf2 >>> 12) &&& 63) ::
        b64char ((buf2 >>> 6) &&& 63) :: b64char (buf2 &&& 63) ::
        base64go rest 0 2
    else
      base64go rest buf2 (pos - 1)

/-- `base64` (item-bitmap.c:383-419), as the character content of the
returned C string. -/
def base64 (data : List Nat) : List Char :=
  base64go data 0 2

/-! ### Specification-side observers (from the spec's wording, for comparison) -/

/-- Bit at a global bit index, per spec §3: byte index = bit index / 8, bit
position within byte = bit index % 8, least-significant-bit first. -/
def dataBit (bitmap : ItemBitmap) (idx : Nat) : Bool :=
  (bitmap.data.getD (idx / 8) 0).testBit (idx % 8)

/-- Bit of (page, item) at the spec §3 global index. -/
def itemBit (bitmap : ItemBitmap) (page item : Nat) : Bool :=
  dataBit bitmap (GetBitmapIndex bitmap page item)

/-- The number of items local to a page, per spec §3: "Entry `i` minus entry
`i-1` (entry `0` taken as-is) is the item count of page `i`". -/
def pageItems (bitmap : ItemBitmap) (page : Nat) : Nat :=
  bitmap.pages.getD page 0 - (if page = 0 then 0 else bitmap.pages.getD (page - 1) 0)

/-- The three bounds checks shared by `bitmap_set_item` / `bitmap_get_item`,
in positive form. -/
def checksPass (bitmap : ItemBitmap) (page item : Nat) : Prop :=
  page < bitmap.npages ∧
    GetBitmapIndex bitmap page item / 8 ≤ bitmap.nbytes ∧
    item < bitmap.pages.getD page 0

instance (bitmap : ItemBitmap) (page item : Nat) :
    Decidable (checksPass bitmap page item) := by
  unfold checksPass; infer_instance

/-- Sequential page registration: `bitmap_add_page` applied to pages
`start, start+1, ...` with the listed item counts — the mandated
"pages 0,1,2,...,npages" calling order (item-bitmap.c:90). -/
def registerAll (bitmap : ItemBitmap) (counts : List Nat) (start : Nat) :
    ItemBitmap :=
  match counts with
  | [] => bitmap
  | c :: rest => registerAll (bitmap_add_page bitmap start c) rest (start + 1)

/-- Number of bit positions (over the `8 * nbytes` addressable bits of `a`)
at which the two data buffers differ — the spec's "bit positions in which the
bitmaps differ". -/
def diffBitCount (a b : ItemBitmap) : Nat :=
  (List.range (8 * a.nbytes)).countP
    (fun t => (a.data.getD (t / 8) 0).testBit (t % 8) !=
      (b.data.getD (t / 8) 0).testBit (t % 8))

/-- Standard base64 sextet stream of a byte list (6-bit groups of the
big-endian bit string, final partial group zero-padded on the right),
written with plain division and remainder. -/
def sextets : List Nat → List Nat
  | a :: b :: c :: rest =>
    (a / 4) :: ((a % 4) * 16 + b / 16) :: ((b % 16) * 4 + c / 64) :: (c % 64) ::
      sextets rest
  | [a, b] => [a / 4, (a % 4) * 16 + b / 16, (b % 16) * 4]
  | [a] => [a / 4, (a % 4) * 16]
  | [] => []

/-- The *unpadded* standard base64 rendering of a byte list: alphabet
characters of the sextet stream and nothing else (no `=`). -/
def base64Unpadded (data : List Nat) : List Char :=
  (sextets data).map b64char

/-! ### List helper lemmas -/

theorem getD_set_eq_ite (l : List Nat) (i j v : Nat) :
    (l.set i v).getD j 0 = if i = j ∧ i < l.length then v else l.getD j 0 := by
  induction l generalizing i j with
  | nil => simp
  | cons a t ih =>
    cases i with
    | zero =>
      cases j with
      | zero => simp
      | succ j => simp
    | succ i =>
      cases j with
      | zero => simp
      | succ j =>
        simp only [List.set_cons_succ, List.getD_cons_succ, List.length_cons, ih]
        by_cases h : i = j ∧ i < t.length
        · rw [if_pos h, if_pos (by omega)]
        · rw [if_neg h, if_neg (by omega)]

theorem getD_append_left (l₁ l₂ : List Nat) (i : Nat) (h : i < l₁.length) :
    (l₁ ++ l₂).getD i 0 = l₁.getD i 0 := by
  induction l₁ generalizing i with
  | nil => simp at h
  | cons a t ih =>
    cases i with
    | zero => simp
    | succ i => simpa using ih i (by simpa using h)

theorem getD_append_right (l₁ l₂ : List Nat) (i : Nat) (h : l₁.length ≤ i) :
    (l₁ ++ l₂).getD i 0 = l₂.getD (i - l₁.length) 0 := by
  induction l₁ generalizing i with
  | nil => simp
  | cons a t ih =>
    cases i with
    | zero => simp at h
    | succ i =>
      simpa using ih i (by simpa using h)

theorem getD_replicate (n i : Nat) : (List.replicate n (0 : Nat)).getD i 0 = 0 := by
  induction n generalizing i with
  | zero => simp
  | succ n ih =>
    cases i with
    | zero => simp [List.replicate_succ]
    | succ i => simp [List.replicate_succ, ih]

/-! ### Basic facts about the accessors -/

theorem set_item_meta (b : ItemBitmap) (p i : Nat) (s : Bool) :
    (bitmap_set_item b p i s).1.npages = b.npages ∧
    (bitmap_set_item b p i s).1.pages = b.pages ∧
    (bitmap_set_item b p i s).1.nbytes = b.nbytes ∧
    (bitmap_set_item b p i s).1.maxBytes = b.maxBytes ∧
    (bitmap_set_item b p i s).1.data.length = b.data.length := by
  unfold bitmap_set_item
  split_ifs <;> exact ⟨rfl, rfl, rfl, rfl, by simp [List.length_set]⟩

theorem set_item_of_not_checksPass (b : ItemBitmap) (p i : Nat) (s : Bool)
    (h : ¬ checksPass b p i) : bitmap_set_item b p i s = (b, false) := by
  unfold checksPass at h
  unfold bitmap_set_item
  split_ifs <;> first | rfl | omega

theorem set_item_true_of_checksPass (b : ItemBitmap) (p i : Nat)
    (h : checksPass b p i) :
    (bitmap_set_item b p i true).1.data =
      b.data.set (GetBitmapIndex b p i / 8)
        (b.data.getD (GetBitmapIndex b p i / 8) 0 |||
          (1 <<< (GetBitmapIndex b p i % 8))) ∧
    (bitmap_set_item b p i true).2 = true := by
  obtain ⟨h1, h2, h3⟩ := h
  unfold bitmap_set_item
  rw [if_neg (by omega), if_neg (by omega), if_neg (by omega), if_pos rfl]
  exact ⟨rfl, rfl⟩

theorem set_item_false_of_checksPass (b : ItemBitmap) (p i : Nat)
    (h : checksPass b p i) :
    (bitmap_set_item b p i false).1.data =
      b.data.set (GetBitmapIndex b p i / 8)
        (b.data.getD (GetBitmapIndex b p i / 8) 0 &&&
          (255 ^^^ (1 <<< (GetBitmapIndex b p i % 8)))) ∧
    (bitmap_set_item b p i false).2 = true := by
  obtain ⟨h1, h2, h3⟩ := h
  unfold bitmap_set_item
  rw [if_neg (by omega), if_neg (by omega), if_neg (by omega), if_neg (by simp)]
  exact ⟨rfl, rfl⟩

theorem get_item_of_not_checksPass (b : ItemBitmap) (p i : Nat)
    (h : ¬ checksPass b p i) : bitmap_get_item b p i = false := by
  unfold checksPass at h
  unfold bitmap_get_item
  split_ifs <;> first | rfl | omega

theorem get_item_of_checksPass (b : ItemBitmap) (p i : Nat)
    (h : checksPass b p i) :
    bitmap_get_item b p i =
      (b.data.getD (GetBitmapIndex b p i / 8) 0 != 0) := by
  obtain ⟨h1, h2, h3⟩ := h
  unfold bitmap_get_item
  rw [if_neg (by omega), if_neg (by omega), if_neg (by omega)]
  have hpow : ((1 : Nat) <<< (GetBitmapIndex b p i % 8) != 0) = true := by
    simp only [bne_iff_ne, ne_eq, Nat.shiftLeft_eq, one_mul]
    exact Nat.pos_iff_ne_zero.mp (Nat.two_pow_pos _)
  rw [hpow, Bool.and_true]

theorem testBit_255 (j : Nat) (h : j < 8) : Nat.testBit 255 j = true := by
  interval_cases j <;> decide

theorem dataBit_set_true (b : ItemBitmap) (p i : Nat) (h : checksPass b p i)
    (hlen : GetBitmapIndex b p i / 8 < b.data.length) :
    dataBit (bitmap_set_item b p i true).1 (GetBitmapIndex b p i) = true := by
  unfold dataBit
  rw [(set_item_true_of_checksPass b p i h).1, getD_set_eq_ite,
    if_pos (And.intro rfl hlen), Nat.shiftLeft_eq, one_mul, Nat.testBit_lor,
    Nat.testBit_two_pow_self, Bool.or_true]

theorem dataBit_set_false (b : ItemBitmap) (p i : Nat) (h : checksPass b p i)
    (hlen : GetBitmapIndex b p i / 8 < b.data.length) :
    dataBit (bitmap_set_item b p i false).1 (GetBitmapIndex b p i) = false := by
  unfold dataBit
  rw [(set_item_false_of_checksPass b p i h).1, getD_set_eq_ite,
    if_pos (And.intro rfl hlen), Nat.shiftLeft_eq, one_mul, Nat.testBit_land,
    Nat.testBit_xor, Nat.testBit_two_pow_self,
    testBit_255 _ (Nat.mod_lt _ (by norm_num))]
  simp

theorem dataBit_set_other (b : ItemBitmap) (p i : Nat) (s : Bool) (m : Nat)
    (hm : m ≠ GetBitmapIndex b p i) :
    dataBit (bitmap_set_item b p i s).1 m = dataBit b m := by
  by_cases hc : checksPass b p i
  · cases s
    · unfold dataBit
      rw [(set_item_false_of_checksPass b p i hc).1, getD_set_eq_ite]
      split
      · rename_i hiff
        have hne : GetBitmapIndex b p i % 8 ≠ m % 8 := by omega
        rw [← hiff.1, Nat.shiftLeft_eq, one_mul, Nat.testBit_land,
          Nat.testBit_xor, Nat.testBit_two_pow_of_ne hne,
          testBit_255 _ (Nat.mod_lt _ (by norm_num))]
        simp
      · rfl
    · unfold dataBit
      rw [(set_item_true_of_checksPass b p i hc).1, getD_set_eq_ite]
      split
      · rename_i hiff
        have hne : GetBitmapIndex b p i % 8 ≠ m % 8 := by omega
        rw [← hiff.1, Nat.shiftLeft_eq, one_mul, Nat.testBit_lor,
          Nat.testBit_two_pow_of_ne hne, Bool.or_false]
      · rfl
  · rw [set_item_of_not_checksPass b p i s hc]

example : (bitmap_add_heap_items (bitmap_init 1)
    [⟨true, false⟩, ⟨true, false⟩, ⟨true, true⟩] 0).2 = 0 := by decide

example :
    itemBit (bitmap_add_heap_items (bitmap_init 1)
      [⟨true, false⟩, ⟨true, false⟩, ⟨true, true⟩] 0).1 0 2 = false := by decide

example : base64 [77, 97, 110] = "TWFu".toList := by decide

example : base64 [0] = ['A', 'A'] := by decide

/-! ### Claim C2 — bounds rejection in SetBit/GetBit -/

/-- C2 (amended): every `bitmap_set_item` / `bitmap_get_item` call with
`page ≥ npages`, with byte index `> nbytes`, or with `item ≥` the
*cumulative* offset `pages[page]`, returns false and leaves the bitmap (in
particular its bit buffer) unmodified. -/
theorem c2_bounds_rejection (b : ItemBitmap) (p i : Nat) (s : Bool)
    (h : p ≥ b.npages ∨ GetBitmapIndex b p i / 8 > b.nbytes ∨
      i ≥ b.pages.getD p 0) :
    bitmap_set_item b p i s = (b, false) ∧ bitmap_get_item b p i = false := by
  have hc : ¬ checksPass b p i := by unfold checksPass; omega
  exact ⟨set_item_of_not_checksPass b p i s hc,
    get_item_of_not_checksPass b p i hc⟩

/-- Two-page bitmap (5 and 3 items, cumulative offsets [5, 8]) used to
refute the original reading of C2. -/
def bitmapC2 : ItemBitmap := registerAll (bitmap_init 2) [5, 3] 0

theorem c2_counterexample :
    pageItems bitmapC2 1 = 3 ∧ 4 ≥ pageItems bitmapC2 1 ∧
    (bitmap_set_item bitmapC2 1 4 true).2 = true ∧
    (bitmap_set_item bitmapC2 1 4 true).1.data ≠ bitmapC2.data := by decide

theorem c2_witness :
    ((2 : Nat) ≥ bitmapC2.npages ∨ GetBitmapIndex bitmapC2 2 0 / 8 > bitmapC2.nbytes ∨
      (0 : Nat) ≥ bitmapC2.pages.getD 2 0) ∧
    (bitmap_set_item bitmapC2 2 0 true = (bitmapC2, false) ∧
      bitmap_get_item bitmapC2 2 0 = false) :=
  ⟨by decide, c2_bounds_rejection bitmapC2 2 0 true (by decide)⟩

/-! ### Claim C3 — GetBit tests the byte, not the bit -/

/-- One-page bitmap with 2 items where only item 1 is set: byte 0 is 2. -/
def bitmapC3 : ItemBitmap :=
  (bitmap_set_item (registerAll (bitmap_init 1) [2] 0) 0 1 true).1

/-- C3: refuted — `bitmap_get_item` uses the C logical AND
`data[byteIdx] && (1 << bitIdx)`, so it returns true whenever the addressed
byte is nonzero.  With only bit 1 set in byte 0, reading (page 0, item 0)
returns true although the bit at its global bit index is 0. -/
theorem c3_get_item_byte_vs_bit :
    itemBit bitmapC3 0 0 = false ∧ bitmap_get_item bitmapC3 0 0 = true ∧
    itemBit bitmapC3 0 1 = true ∧ bitmap_get_item bitmapC3 0 1 = true := by
  decide

/-! ### Claim C8 — Copy duplicates layout, zeroes bit data -/

/-- C8: `bitmap_copy` duplicates `npages`, the offset table, `nbytes` and
`maxBytes`, and produces an all-zero bit buffer of the same capacity,
whatever bits the source has set.  (The copy's buffers are fresh
allocations; in this value-semantics embedding the two bitmaps are separate
values, so no mutation of one can affect the other.) -/
theorem c8_copy_layout_zero_data (src : ItemBitmap) :
    (bitmap_copy src).npages = src.npages ∧
    (bitmap_copy src).pages = src.pages ∧
    (bitmap_copy src).nbytes = src.nbytes ∧
    (bitmap_copy src).maxBytes = src.maxBytes ∧
    (bitmap_copy src).data.length = src.maxBytes ∧
    ∀ i : Nat, (bitmap_copy src).data.getD i 0 = 0 :=
  ⟨rfl, rfl, rfl, rfl, List.length_replicate .., fun i => getD_replicate ..⟩

/-! ### Registration: the offset table is a running sum (claim C4) -/

theorem bitmap_grow_pages (b : ItemBitmap) : (bitmap_grow b).pages = b.pages := by
  unfold bitmap_grow; split <;> rfl

theorem bitmap_grow_npages (b : ItemBitmap) : (bitmap_grow b).npages = b.npages := by
  unfold bitmap_grow; split <;> rfl

theorem bitmap_grow_nbytes (b : ItemBitmap) : (bitmap_grow b).nbytes = b.nbytes := by
  unfold bitmap_grow; split <;> rfl

theorem add_page_pages (b : ItemBitmap) (page items : Nat) :
    (bitmap_add_page b page items).pages =
      b.pages.set page
        (if page = 0 then items else items + b.pages.getD (page - 1) 0) := by
  unfold bitmap_add_page
  rw [bitmap_grow_pages]

theorem add_page_pages_length (b : ItemBitmap) (page items : Nat) :
    (bitmap_add_page b page items).pages.length = b.pages.length := by
  rw [add_page_pages, List.length_set]

theorem add_page_nbytes (b : ItemBitmap) (page items : Nat) :
    (bitmap_add_page b page items).nbytes =
      ((bitmap_add_page b page items).pages.getD page 0 + 7) / 8 := by
  rw [add_page_pages]
  unfold bitmap_add_page
  rw [bitmap_grow_nbytes]

theorem registerAll_pages_getD : ∀ (counts : List Nat) (start : Nat) (b : ItemBitmap),
    start + counts.length ≤ b.pages.length →
    (∀ j, j < start →
      (registerAll b counts start).pages.getD j 0 = b.pages.getD j 0) ∧
    (∀ k, k < counts.length →
      (registerAll b counts start).pages.getD (start + k) 0 =
        (if start = 0 then 0 else b.pages.getD (start - 1) 0) +
          (counts.take (k + 1)).sum) := by
  intro counts
  induction counts with
  | nil =>
    intro start b _
    exact ⟨fun j _ => rfl, fun k hk => absurd hk (by simp)⟩
  | cons c rest ih =>
    intro start b hlen
    have hstartlt : start < b.pages.length := by
      simp only [List.length_cons] at hlen; omega
    have hpages' : (bitmap_add_page b start c).pages =
        b.pages.set start
          (if start = 0 then c else c + b.pages.getD (start - 1) 0) :=
      add_page_pages b start c
    have hlen' : (start + 1) + rest.length ≤ (bitmap_add_page b start c).pages.length := by
      rw [add_page_pages_length]
      simp only [List.length_cons] at hlen; omega
    obtain ⟨ihA, ihB⟩ := ih (start + 1) (bitmap_add_page b start c) hlen'
    have hself : (bitmap_add_page b start c).pages.getD start 0 =
        (if start = 0 then 0 else b.pages.getD (start - 1) 0) + c := by
      rw [hpages', getD_set_eq_ite, if_pos ⟨rfl, hstartlt⟩]
      split <;> omega
    have hother : ∀ j, j ≠ start →
        (bitmap_add_page b start c).pages.getD j 0 = b.pages.getD j 0 := by
      intro j hj
      rw [hpages', getD_set_eq_ite, if_neg (by omega)]
    constructor
    · intro j hj
      show (registerAll (bitmap_add_page b start c) rest (start + 1)).pages.getD j 0 = _
      rw [ihA j (by omega), hother j (by omega)]
    · intro k hk
      show (registerAll (bitmap_add_page b start c) rest (start + 1)).pages.getD (start + k) 0 = _
      cases k with
      | zero =>
        show (registerAll (bitmap_add_page b start c) rest (start + 1)).pages.getD start 0 =
          (if start = 0 then 0 else b.pages.getD (start - 1) 0) +
            (List.take 1 (c :: rest)).sum
        rw [ihA start (by omega), hself]
        simp
      | succ k' =>
        have : start + (k' + 1) = (start + 1) + k' := by omega
        rw [this, ihB k' (by simpa using hk)]
        rw [if_neg (by omega), Nat.add_sub_cancel, hself]
        simp only [List.take_succ_cons, List.sum_cons]
        split <;> omega

theorem sum_take_mono (l : List Nat) (m n : Nat) (h : m ≤ n) :
    (l.take m).sum ≤ (l.take n).sum := by
  have hn : n = m + (n - m) := by omega
  rw [hn, List.take_add, List.sum_append]
  omega

/-- C4: after constructing with `page_count = N` and registering pages
`0..N-1` in order with item counts `c_0..c_{N-1}` (each at most the per-page
maximum), `pages[i]` is the cumulative sum `c_0 + ... + c_i` for every
`i < N`, and the offset table is non-decreasing. -/
theorem c4_offsets_cumulative (N : Nat) (counts : List Nat)
    (hlen : counts.length = N)
    (hmax : ∀ c ∈ counts, c ≤ MaxHeapTuplesPerPage) :
    (∀ i, i < N →
      (registerAll (bitmap_init N) counts 0).pages.getD i 0 =
        (counts.take (i + 1)).sum) ∧
    (∀ i j, i ≤ j → j < N →
      (registerAll (bitmap_init N) counts 0).pages.getD i 0 ≤
        (registerAll (bitmap_init N) counts 0).pages.getD j 0) := by
  have hplen : (bitmap_init N).pages.length = N := List.length_replicate ..
  obtain ⟨-, hB⟩ := registerAll_pages_getD counts 0 (bitmap_init N)
    (by rw [hplen]; omega)
  constructor
  · intro i hi
    have h := hB i (by omega)
    simpa using h
  · intro i j hij hj
    have hi' := hB i (by omega)
    have hj' := hB j (by omega)
    simp only [Nat.zero_add, reduceIte] at hi' hj'
    rw [hi', hj']
    exact sum_take_mono counts (i + 1) (j + 1) (by omega)

theorem c4_witness :
    (∀ i, i < 2 →
      (registerAll (bitmap_init 2) [2, 3] 0).pages.getD i 0 =
        ([2, 3].take (i + 1)).sum) ∧
    (∀ i j, i ≤ j → j < 2 →
      (registerAll (bitmap_init 2) [2, 3] 0).pages.getD i 0 ≤
        (registerAll (bitmap_init 2) [2, 3] 0).pages.getD j 0) :=
  c4_offsets_cumulative 2 [2, 3] (by decide) (by decide)

/-! ### Growth of the bit buffer (claim C5) -/

/-- State invariant maintained by in-order registration: the buffer is
exactly `maxBytes` long, `nbytes` fits in it, capacity is a whole number of
chunks, and `nbytes` reflects the cumulative count of the last registered
page (`start` is the next page to register). -/
def GrowthInv (b : ItemBitmap) (start : Nat) : Prop :=
  b.data.length = b.maxBytes ∧
  b.nbytes ≤ b.maxBytes ∧
  PALLOC_CHUNK ∣ b.maxBytes ∧
  b.nbytes = ((if start = 0 then 0 else b.pages.getD (start - 1) 0) + 7) / 8

theorem bitmap_init_growthInv (N : Nat) : GrowthInv (bitmap_init N) 0 := by
  refine ⟨List.length_replicate .., Nat.zero_le _, dvd_mul_right _ _, ?_⟩
  simp [bitmap_init]

theorem add_page_self_getD (b : ItemBitmap) (start c : Nat)
    (hlt : start < b.pages.length) :
    (bitmap_add_page b start c).pages.getD start 0 =
      (if start = 0 then 0 else b.pages.getD (start - 1) 0) + c := by
  rw [add_page_pages, getD_set_eq_ite, if_pos ⟨rfl, hlt⟩]
  split <;> omega

theorem add_page_data_maxBytes (b : ItemBitmap) (page items : Nat) :
    ((bitmap_add_page b page items).maxBytes = b.maxBytes ∧
      (bitmap_add_page b page items).data = b.data ∧
      (bitmap_add_page b page items).nbytes ≤ b.maxBytes) ∨
    ((bitmap_add_page b page items).maxBytes = b.maxBytes + PALLOC_CHUNK ∧
      (bitmap_add_page b page items).data = b.data ++ List.replicate PALLOC_CHUNK 0 ∧
      (bitmap_add_page b page items).nbytes > b.maxBytes) := by
  by_cases hq : ((b.pages.set page (if page = 0 then items
      else items + b.pages.getD (page - 1) 0)).getD page 0 + 7) / 8 > b.maxBytes
  · right
    unfold bitmap_add_page bitmap_grow
    simp only
    rw [if_pos hq]
    exact ⟨rfl, rfl, hq⟩
  · left
    unfold bitmap_add_page bitmap_grow
    simp only
    rw [if_neg hq]
    exact ⟨rfl, rfl, Nat.le_of_not_lt hq⟩

theorem add_page_growth_step (b : ItemBitmap) (start c : Nat)
    (hInv : GrowthInv b start) (hc : c ≤ MaxHeapTuplesPerPage)
    (hlt : start < b.pages.length) :
    GrowthInv (bitmap_add_page b start c) (start + 1) ∧
    ((bitmap_add_page b start c).maxBytes = b.maxBytes ∨
      (bitmap_add_page b start c).maxBytes = b.maxBytes + PALLOC_CHUNK) ∧
    (∀ i, i < b.nbytes →
      (bitmap_add_page b start c).data.getD i 0 = b.data.getD i 0) ∧
    (∀ i, b.maxBytes ≤ i → i < (bitmap_add_page b start c).maxBytes →
      (bitmap_add_page b start c).data.getD i 0 = 0) := by
  obtain ⟨hlen0, hle0, hdvd0, hnb0⟩ := hInv
  have hchunk : PALLOC_CHUNK = 1024 := rfl
  have hmaxC : MaxHeapTuplesPerPage = 291 := rfl
  have hself := add_page_self_getD b start c hlt
  have hnbEq : (bitmap_add_page b start c).nbytes =
      ((if start = 0 then 0 else b.pages.getD (start - 1) 0) + c + 7) / 8 := by
    rw [add_page_nbytes, hself]
  have hInvNb : (bitmap_add_page b start c).nbytes =
      ((if start + 1 = 0 then 0 else
        (bitmap_add_page b start c).pages.getD (start + 1 - 1) 0) + 7) / 8 := by
    rw [if_neg (by omega), Nat.add_sub_cancel, hself, add_page_nbytes, hself]
  rcases add_page_data_maxBytes b start c with ⟨hmb, hdata, hle⟩ | ⟨hmb, hdata, hgt⟩
  · refine ⟨⟨?_, ?_, ?_, hInvNb⟩, Or.inl hmb, ?_, ?_⟩
    · rw [hdata, hmb, hlen0]
    · rw [hmb]; exact hle
    · rw [hmb]; exact hdvd0
    · intro i hi; rw [hdata]
    · intro i hge hltc; rw [hmb] at hltc; omega
  · refine ⟨⟨?_, ?_, ?_, hInvNb⟩, Or.inr hmb, ?_, ?_⟩
    · rw [hdata, hmb, List.length_append, List.length_replicate, hlen0]
    · rw [hmb, hnbEq]
      rw [hnbEq] at hgt
      omega
    · rw [hmb]; exact Nat.dvd_add hdvd0 dvd_rfl
    · intro i hi
      rw [hdata]
      exact getD_append_left _ _ i (by omega)
    · intro i hge hltc
      rw [hmb] at hltc
      rw [hdata, getD_append_right _ _ i (by omega), getD_replicate]

theorem registerAll_pages_length : ∀ (counts : List Nat) (start : Nat)
    (b : ItemBitmap),
    (registerAll b counts start).pages.length = b.pages.length := by
  intro counts
  induction counts with
  | nil => intro start b; rfl
  | cons c rest ih =>
    intro start b
    show (registerAll (bitmap_add_page b start c) rest (start + 1)).pages.length = _
    rw [ih, add_page_pages_length]

theorem registerAll_growthInv : ∀ (counts : List Nat) (start : Nat)
    (b : ItemBitmap),
    (∀ c ∈ counts, c ≤ MaxHeapTuplesPerPage) →
    start + counts.length ≤ b.pages.length →
    GrowthInv b start →
    GrowthInv (registerAll b counts start) (start + counts.length) := by
  intro counts
  induction counts with
  | nil => intro start b _ _ h; exact h
  | cons c rest ih =>
    intro start b hmax hlen hInv
    simp only [List.length_cons] at hlen
    have hstep := add_page_growth_step b start c hInv
      (hmax c (List.mem_cons_self c rest)) (by omega)
    have hres := ih (start + 1) (bitmap_add_page b start c)
      (fun x hx => hmax x (List.mem_cons_of_mem c hx))
      (by rw [add_page_pages_length]; omega) hstep.1
    show GrowthInv (registerAll (bitmap_add_page b start c) rest (start + 1)) _
    have harith : start + (c :: rest).length = (start + 1) + rest.length := by
      simp only [List.length_cons]; omega
    rw [harith]
    exact hres

theorem registerAll_append (l1 l2 : List Nat) : ∀ (start : Nat) (b : ItemBitmap),
    registerAll b (l1 ++ l2) start =
      registerAll (registerAll b l1 start) l2 (start + l1.length) := by
  induction l1 with
  | nil => intro start b; simp [registerAll]
  | cons c rest ih =>
    intro start b
    show registerAll (bitmap_add_page b start c) (rest ++ l2) (start + 1) = _
    rw [ih]
    have harith : start + 1 + rest.length = start + (c :: rest).length := by
      simp only [List.length_cons]; omega
    rw [harith]
    rfl

theorem take_succ_getD : ∀ (l : List Nat) (k : Nat), k < l.length →
    l.take (k + 1) = l.take k ++ [l.getD k 0] := by
  intro l
  induction l with
  | nil => intro k hk; simp at hk
  | cons a t ih =>
    intro k hk
    cases k with
    | zero => simp
    | succ k =>
      simp only [List.take_succ_cons, List.getD_cons_succ, List.cons_append,
        List.cons.injEq, true_and]
      exact ih k (by simpa using hk)

theorem getD_mem_of_lt : ∀ (l : List Nat) (k : Nat), k < l.length →
    l.getD k 0 ∈ l := by
  intro l
  induction l with
  | nil => intro k hk; simp at hk
  | cons a t ih =>
    intro k hk
    cases k with
    | zero => exact List.mem_cons_self a t
    | succ k => exact List.mem_cons_of_mem a (ih k (by simpa using hk))

theorem mem_of_mem_take : ∀ (l : List Nat) (k : Nat) (c : Nat),
    c ∈ l.take k → c ∈ l := by
  intro l
  induction l with
  | nil => intro k c hc; simp at hc
  | cons a t ih =>
    intro k c hc
    cases k with
    | zero => simp at hc
    | succ k =>
      simp only [List.take_succ_cons, List.mem_cons] at hc
      rcases hc with h | h
      · subst h; exact List.mem_cons_self c t
      · exact List.mem_cons_of_mem a (ih k c h)

/-- C5: along any in-order registration sequence with item counts bounded by
the per-page maximum, after each call `nbytes ≤ maxBytes`; each call leaves
`maxBytes` unchanged or adds exactly one `PALLOC_CHUNK` (so capacity only
ever increases, by whole chunks, and is always a chunk multiple); every byte
below the previous `nbytes` keeps its value; and the newly added capacity
region is zero-filled. -/
theorem c5_growth_correctness (N : Nat) (counts : List Nat) (k : Nat)
    (hlen : counts.length ≤ N)
    (hmax : ∀ c ∈ counts, c ≤ MaxHeapTuplesPerPage)
    (hk : k < counts.length) :
    ((registerAll (bitmap_init N) (counts.take (k + 1)) 0).nbytes ≤
      (registerAll (bitmap_init N) (counts.take (k + 1)) 0).maxBytes) ∧
    ((registerAll (bitmap_init N) (counts.take (k + 1)) 0).maxBytes =
        (registerAll (bitmap_init N) (counts.take k) 0).maxBytes ∨
      (registerAll (bitmap_init N) (counts.take (k + 1)) 0).maxBytes =
        (registerAll (bitmap_init N) (counts.take k) 0).maxBytes + PALLOC_CHUNK) ∧
    PALLOC_CHUNK ∣ (registerAll (bitmap_init N) (counts.take k) 0).maxBytes ∧
    (∀ i, i < (registerAll (bitmap_init N) (counts.take k) 0).nbytes →
      (registerAll (bitmap_init N) (counts.take (k + 1)) 0).data.getD i 0 =
        (registerAll (bitmap_init N) (counts.take k) 0).data.getD i 0) ∧
    (∀ i, (registerAll (bitmap_init N) (counts.take k) 0).maxBytes ≤ i →
      i < (registerAll (bitmap_init N) (counts.take (k + 1)) 0).maxBytes →
      (registerAll (bitmap_init N) (counts.take (k + 1)) 0).data.getD i 0 = 0) := by
  have htk : (counts.take k).length = k := by
    rw [List.length_take]; omega
  have hinv : GrowthInv (registerAll (bitmap_init N) (counts.take k) 0) k := by
    have hp0 : (bitmap_init N).pages.length = N := List.length_replicate ..
    have h := registerAll_growthInv (counts.take k) 0 (bitmap_init N)
      (fun c hc => hmax c (mem_of_mem_take counts k c hc))
      (by rw [hp0]; omega)
      (bitmap_init_growthInv N)
    rwa [Nat.zero_add, htk] at h
  have hsplit : registerAll (bitmap_init N) (counts.take (k + 1)) 0 =
      bitmap_add_page (registerAll (bitmap_init N) (counts.take k) 0) k
        (counts.getD k 0) := by
    rw [take_succ_getD counts k hk, registerAll_append, Nat.zero_add, htk]
    rfl
  have hplen : (registerAll (bitmap_init N) (counts.take k) 0).pages.length = N := by
    rw [registerAll_pages_length]
    exact List.length_replicate ..
  have hstep := add_page_growth_step
    (registerAll (bitmap_init N) (counts.take k) 0) k (counts.getD k 0) hinv
    (hmax _ (getD_mem_of_lt counts k hk)) (by rw [hplen]; omega)
  rw [hsplit]
  exact ⟨hstep.1.2.1, hstep.2.1, hinv.2.2.1, hstep.2.2.1, hstep.2.2.2⟩

theorem c5_witness :
    ((registerAll (bitmap_init 2) ([5, 3].take (1 + 1)) 0).nbytes ≤
      (registerAll (bitmap_init 2) ([5, 3].take (1 + 1)) 0).maxBytes) ∧
    ((registerAll (bitmap_init 2) ([5, 3].take (1 + 1)) 0).maxBytes =
        (registerAll (bitmap_init 2) ([5, 3].take 1) 0).maxBytes ∨
      (registerAll (bitmap_init 2) ([5, 3].take (1 + 1)) 0).maxBytes =
        (registerAll (bitmap_init 2) ([5, 3].take 1) 0).maxBytes + PALLOC_CHUNK) ∧
    PALLOC_CHUNK ∣ (registerAll (bitmap_init 2) ([5, 3].take 1) 0).maxBytes ∧
    (∀ i, i < (registerAll (bitmap_init 2) ([5, 3].take 1) 0).nbytes →
      (registerAll (bitmap_init 2) ([5, 3].take (1 + 1)) 0).data.getD i 0 =
        (registerAll (bitmap_init 2) ([5, 3].take 1) 0).data.getD i 0) ∧
    (∀ i, (registerAll (bitmap_init 2) ([5, 3].take 1) 0).maxBytes ≤ i →
      i < (registerAll (bitmap_init 2) ([5, 3].take (1 + 1)) 0).maxBytes →
      (registerAll (bitmap_init 2) ([5, 3].take (1 + 1)) 0).data.getD i 0 = 0) :=
  c5_growth_correctness 2 [5, 3] 1 (by decide) (by decide) (by decide)

/-! ### The HOT-resolution second pass (claim C1) -/

theorem checksPass_congr (b b' : ItemBitmap) (p i : Nat)
    (h1 : b'.npages = b.npages) (h2 : b'.pages = b.pages)
    (h3 : b'.nbytes = b.nbytes) (h : checksPass b p i) : checksPass b' p i := by
  unfold checksPass GetBitmapIndex at h ⊢
  rw [h1, h2, h3]
  exact h

theorem getBitmapIndex_congr (b b' : ItemBitmap) (p i : Nat)
    (h2 : b'.pages = b.pages) : GetBitmapIndex b' p i = GetBitmapIndex b p i := by
  unfold GetBitmapIndex
  rw [h2]

theorem heapSecondPass_meta : ∀ (slots : List HeapSlot) (b : ItemBitmap)
    (n page item : Nat),
    (heapSecondPass b n page slots item).1.npages = b.npages ∧
    (heapSecondPass b n page slots item).1.pages = b.pages ∧
    (heapSecondPass b n page slots item).1.nbytes = b.nbytes ∧
    (heapSecondPass b n page slots item).1.maxBytes = b.maxBytes ∧
    (heapSecondPass b n page slots item).1.data.length = b.data.length := by
  intro slots
  induction slots with
  | nil => intro b n page item; exact ⟨rfl, rfl, rfl, rfl, rfl⟩
  | cons s rest ih =>
    intro b n page item
    cases hH : s.heapOnly with
    | false =>
      simp only [heapSecondPass, hH, Bool.false_eq_true, if_false]
      exact ih b n page (item + 1)
    | true =>
      cases hg : bitmap_get_item b page item with
      | false =>
        simp only [heapSecondPass, hH, hg, if_true, Bool.false_eq_true, if_false]
        exact ih b n page (item + 1)
      | true =>
        simp only [heapSecondPass, hH, hg, if_true]
        obtain ⟨m1, m2, m3, m4, m5⟩ := set_item_meta b page item false
        obtain ⟨r1, r2, r3, r4, r5⟩ :=
          ih (bitmap_set_item b page item false).1
            (n + if (bitmap_set_item b page item false).2 then 0 else 1)
            page (item + 1)
        exact ⟨r1.trans m1, r2.trans m2, r3.trans m3, r4.trans m4, r5.trans m5⟩

theorem dataBit_set_false_le (b : ItemBitmap) (p i m : Nat)
    (h : dataBit (bitmap_set_item b p i false).1 m = true) :
    dataBit b m = true := by
  by_cases hc : checksPass b p i
  · unfold dataBit at h ⊢
    rw [(set_item_false_of_checksPass b p i hc).1, getD_set_eq_ite] at h
    revert h
    split
    · rename_i hcond
      rw [← hcond.1, Nat.testBit_land]
      intro h
      exact (Bool.and_eq_true_iff.mp h).1
    · exact id
  · rwa [set_item_of_not_checksPass b p i false hc] at h

theorem heapSecondPass_monotone : ∀ (slots : List HeapSlot) (b : ItemBitmap)
    (n page item m : Nat),
    dataBit (heapSecondPass b n page slots item).1 m = true →
    dataBit b m = true := by
  intro slots
  induction slots with
  | nil => intro b n page item m h; exact h
  | cons s rest ih =>
    intro b n page item m h
    revert h
    cases hH : s.heapOnly with
    | false =>
      simp only [heapSecondPass, hH, Bool.false_eq_true, if_false]
      exact ih b n page (item + 1) m
    | true =>
      cases hg : bitmap_get_item b page item with
      | false =>
        simp only [heapSecondPass, hH, hg, if_true, Bool.false_eq_true, if_false]
        exact ih b n page (item + 1) m
      | true =>
        simp only [heapSecondPass, hH, hg, if_true]
        intro h
        exact dataBit_set_false_le b page item m
          (ih (bitmap_set_item b page item false).1 _ page (item + 1) m h)

theorem heapSecondPass_heapOnly_bit : ∀ (slots : List HeapSlot) (b : ItemBitmap)
    (n page start i : Nat) (hi : i < slots.length),
    (slots.get ⟨i, hi⟩).heapOnly = true →
    checksPass b page (start + i) →
    GetBitmapIndex b page (start + i) / 8 < b.data.length →
    dataBit (heapSecondPass b n page slots start).1
      (GetBitmapIndex b page (start + i)) = false := by
  intro slots
  induction slots with
  | nil => intro b n page start i hi; simp at hi
  | cons s rest ih =>
    intro b n page start i hi hHO hcp hlen
    cases i with
    | zero =>
      have hH : s.heapOnly = true := hHO
      cases hg : bitmap_get_item b page start with
      | true =>
        simp only [heapSecondPass, hH, hg, if_true]
        cases hfin : dataBit (heapSecondPass (bitmap_set_item b page start false).1
            (n + if (bitmap_set_item b page start false).2 then 0 else 1)
            page rest (start + 1)).1 (GetBitmapIndex b page (start + 0)) with
        | false => rfl
        | true =>
          have hmono := heapSecondPass_monotone rest
            (bitmap_set_item b page start false).1 _ page (start + 1) _ hfin
          have hcleared := dataBit_set_false b page start
            (by simpa using hcp) (by simpa using hlen)
          rw [show start + 0 = start from rfl] at hmono
          rw [hmono] at hcleared
          exact absurd hcleared (by simp)
      | false =>
        simp only [heapSecondPass, hH, hg, Bool.false_eq_true, if_false, if_true]
        have hbyte : b.data.getD (GetBitmapIndex b page start / 8) 0 = 0 := by
          have hgeq := get_item_of_checksPass b page start (by simpa using hcp)
          rw [hg] at hgeq
          have := hgeq.symm
          simpa using this
        cases hfin : dataBit (heapSecondPass b n page rest (start + 1)).1
            (GetBitmapIndex b page (start + 0)) with
        | false => rfl
        | true =>
          have hmono := heapSecondPass_monotone rest b n page (start + 1) _ hfin
          unfold dataBit at hmono
          rw [show start + 0 = start from rfl, hbyte] at hmono
          simp [Nat.zero_testBit] at hmono
    | succ j =>
      have hget : ((s :: rest).get ⟨j + 1, hi⟩) = rest.get ⟨j, by simpa using hi⟩ := rfl
      rw [hget] at hHO
      have harith : start + (j + 1) = (start + 1) + j := by omega
      rw [harith] at hcp hlen ⊢
      cases hH : s.heapOnly with
      | false =>
        simp only [heapSecondPass, hH, Bool.false_eq_true, if_false]
        exact ih b n page (start + 1) j (by simpa using hi) hHO hcp hlen
      | true =>
        cases hg : bitmap_get_item b page start with
        | false =>
          simp only [heapSecondPass, hH, hg, if_true, Bool.false_eq_true, if_false]
          exact ih b n page (start + 1) j (by simpa using hi) hHO hcp hlen
        | true =>
          simp only [heapSecondPass, hH, hg, if_true]
          obtain ⟨m1, m2, m3, m4, m5⟩ := set_item_meta b page start false
          have hidx : GetBitmapIndex (bitmap_set_item b page start false).1 page
              ((start + 1) + j) = GetBitmapIndex b page ((start + 1) + j) :=
            getBitmapIndex_congr b _ page _ m2
          have hres := ih (bitmap_set_item b page start false).1
            (n + if (bitmap_set_item b page start false).2 then 0 else 1)
            page (start + 1) j (by simpa using hi) hHO
            (checksPass_congr b _ page _ m1 m2 m3 hcp)
            (by rw [hidx, m5]; exact hlen)
          rwa [hidx] at hres

theorem heapSecondPass_other_bits : ∀ (slots : List HeapSlot) (b : ItemBitmap)
    (n page start m : Nat),
    (∀ j (hj : j < slots.length), (slots.get ⟨j, hj⟩).heapOnly = true →
      m ≠ GetBitmapIndex b page (start + j)) →
    dataBit (heapSecondPass b n page slots start).1 m = dataBit b m := by
  intro slots
  induction slots with
  | nil => intro b n page start m _; rfl
  | cons s rest ih =>
    intro b n page start m hm
    have hmrest : ∀ (b' : ItemBitmap), b'.pages = b.pages →
        ∀ j (hj : j < rest.length), (rest.get ⟨j, hj⟩).heapOnly = true →
        m ≠ GetBitmapIndex b' page ((start + 1) + j) := by
      intro b' hp j hj hHO
      rw [getBitmapIndex_congr b b' page _ hp]
      have harith : (start + 1) + j = start + (j + 1) := by omega
      rw [harith]
      exact hm (j + 1) (by simpa using hj) hHO
    cases hH : s.heapOnly with
    | false =>
      simp only [heapSecondPass, hH, Bool.false_eq_true, if_false]
      exact ih b n page (start + 1) m (hmrest b rfl)
    | true =>
      cases hg : bitmap_get_item b page start with
      | false =>
        simp only [heapSecondPass, hH, hg, if_true, Bool.false_eq_true, if_false]
        exact ih b n page (start + 1) m (hmrest b rfl)
      | true =>
        simp only [heapSecondPass, hH, hg, if_true]
        have hm0 : m ≠ GetBitmapIndex b page start := by
          have := hm 0 (by simp) hH
          simpa using this
        obtain ⟨m1, m2, m3, m4, m5⟩ := set_item_meta b page start false
        rw [ih (bitmap_set_item b page start false).1 _ page (start + 1) m
          (hmrest _ m2)]
        exact dataBit_set_other b page start false m hm0

/-- C1: on a heap page with 3 used slots where the tuple at slot 2 is
heap-only and those at slots 0 and 1 are not, `bitmap_add_heap_items` on a
fresh bitmap leaves bits 0 and 1 at 1, bit 2 at 0, and returns error count
0.  In general, the second pass leaves the bit of every in-bounds heap-only
slot at 0 (it clears it exactly when it currently reads as set; when the
read returns false the addressed byte is zero, so the bit already is 0), and
leaves the bit of every non-heap-only slot unchanged. -/
theorem c1_heap_hot_resolution :
    ((bitmap_add_heap_items (bitmap_init 1)
        [⟨true, false⟩, ⟨true, false⟩, ⟨true, true⟩] 0).2 = 0 ∧
      itemBit (bitmap_add_heap_items (bitmap_init 1)
        [⟨true, false⟩, ⟨true, false⟩, ⟨true, true⟩] 0).1 0 0 = true ∧
      itemBit (bitmap_add_heap_items (bitmap_init 1)
        [⟨true, false⟩, ⟨true, false⟩, ⟨true, true⟩] 0).1 0 1 = true ∧
      itemBit (bitmap_add_heap_items (bitmap_init 1)
        [⟨true, false⟩, ⟨true, false⟩, ⟨true, true⟩] 0).1 0 2 = false) ∧
    (∀ (b : ItemBitmap) (n page : Nat) (slots : List HeapSlot) (i : Nat)
      (hi : i < slots.length),
      checksPass b page i →
      GetBitmapIndex b page i / 8 < b.data.length →
      ((slots.get ⟨i, hi⟩).heapOnly = true →
        dataBit (heapSecondPass b n page slots 0).1
          (GetBitmapIndex b page i) = false) ∧
      ((slots.get ⟨i, hi⟩).heapOnly = false →
        dataBit (heapSecondPass b n page slots 0).1 (GetBitmapIndex b page i) =
          dataBit b (GetBitmapIndex b page i))) := by
  constructor
  · exact ⟨by decide, by decide, by decide, by decide⟩
  · intro b n page slots i hi hcp hlen
    constructor
    · intro hHO
      have h := heapSecondPass_heapOnly_bit slots b n page 0 i hi hHO
        (by simpa using hcp) (by simpa using hlen)
      simpa using h
    · intro hHO
      apply heapSecondPass_other_bits
      intro j hj hj'
      have hij : i ≠ j := by
        intro he
        subst he
        exact Bool.false_ne_true (hHO.symm.trans hj')
      show GetBitmapIndex b page i ≠ GetBitmapIndex b page (0 + j)
      unfold GetBitmapIndex
      omega

/-- One-page bitmap with 3 items and bit 0 set, used to instantiate C1. -/
def bitmapC1 : ItemBitmap :=
  (bitmap_set_item (registerAll (bitmap_init 1) [3] 0) 0 0 true).1

theorem c1_witness :
    checksPass bitmapC1 0 0 ∧
    GetBitmapIndex bitmapC1 0 0 / 8 < bitmapC1.data.length ∧
    dataBit (heapSecondPass bitmapC1 0 0
      [⟨true, true⟩, ⟨true, false⟩, ⟨true, false⟩] 0).1
      (GetBitmapIndex bitmapC1 0 0) = false :=
  ⟨by decide, by decide,
    (c1_heap_hot_resolution.2 bitmapC1 0 0
      [⟨true, true⟩, ⟨true, false⟩, ⟨true, false⟩] 0 (by decide)
      (by decide) (by decide)).1 (by decide)⟩

/-! ### Index-page population (claim C6) -/

theorem add_index_items_meta : ∀ (slots : List IndexSlot) (b : ItemBitmap)
    (page : Nat),
    (bitmap_add_index_items b slots page).1.npages = b.npages ∧
    (bitmap_add_index_items b slots page).1.pages = b.pages ∧
    (bitmap_add_index_items b slots page).1.nbytes = b.nbytes ∧
    (bitmap_add_index_items b slots page).1.maxBytes = b.maxBytes := by
  intro slots
  induction slots with
  | nil => intro b page; exact ⟨rfl, rfl, rfl, rfl⟩
  | cons s rest ih =>
    intro b page
    obtain ⟨m1, m2, m3, m4, _⟩ := set_item_meta b s.blkno (s.posid - 1) true
    obtain ⟨r1, r2, r3, r4⟩ :=
      ih (bitmap_set_item b s.blkno (s.posid - 1) true).1 page
    exact ⟨r1.trans m1, r2.trans m2, r3.trans m3, r4.trans m4⟩

theorem add_index_items_page_irrelevant : ∀ (slots : List IndexSlot)
    (b : ItemBitmap) (p q : Nat),
    bitmap_add_index_items b slots p = bitmap_add_index_items b slots q := by
  intro slots
  induction slots with
  | nil => intro b p q; rfl
  | cons s rest ih =>
    intro b p q
    simp only [bitmap_add_index_items]
    rw [ih]

/-- Five-page bitmap with item counts [1, 1, 1, 1, 7] (cumulative offsets
[1, 2, 3, 4, 11]) used to instantiate the C6 scenario. -/
def bitmapC6 : ItemBitmap := registerAll (bitmap_init 5) [1, 1, 1, 1, 7] 0

/-- C6: `bitmap_add_index_items` addresses bits by each slot's *target*
block number and 1-based position converted to 0-based — its own `page`
argument is irrelevant to the result — it never registers a page (all layout
fields are untouched), and an index slot pointing at heap page 4, position 7
(1-based) sets bit (page 4, item 6). -/
theorem c6_index_targets_heap_coords :
    (∀ (b : ItemBitmap) (slots : List IndexSlot) (p q : Nat),
      bitmap_add_index_items b slots p = bitmap_add_index_items b slots q) ∧
    (∀ (b : ItemBitmap) (slots : List IndexSlot) (p : Nat),
      (bitmap_add_index_items b slots p).1.npages = b.npages ∧
      (bitmap_add_index_items b slots p).1.pages = b.pages ∧
      (bitmap_add_index_items b slots p).1.nbytes = b.nbytes ∧
      (bitmap_add_index_items b slots p).1.maxBytes = b.maxBytes) ∧
    (∀ (b : ItemBitmap) (blk pos p : Nat),
      checksPass b blk (pos - 1) →
      GetBitmapIndex b blk (pos - 1) / 8 < b.data.length →
      dataBit (bitmap_add_index_items b [⟨blk, pos⟩] p).1
        (GetBitmapIndex b blk (pos - 1)) = true) ∧
    (itemBit (bitmap_add_index_items bitmapC6 [⟨4, 7⟩] 9).1 4 6 = true ∧
      (bitmap_add_index_items bitmapC6 [⟨4, 7⟩] 9).2 = 0) := by
  refine ⟨?_, ?_, ?_, by decide, by decide⟩
  · intro b slots p q
    exact add_index_items_page_irrelevant slots b p q
  · intro b slots p
    exact add_index_items_meta slots b p
  · intro b blk pos p hcp hlen
    simp only [bitmap_add_index_items]
    exact dataBit_set_true b blk (pos - 1) hcp hlen

theorem c6_witness :
    checksPass bitmapC6 4 6 ∧
    GetBitmapIndex bitmapC6 4 6 / 8 < bitmapC6.data.length ∧
    dataBit (bitmap_add_index_items bitmapC6 [⟨4, 7⟩] 9).1
      (GetBitmapIndex bitmapC6 4 6) = true :=
  ⟨by decide, by decide,
    c6_index_targets_heap_coords.2.2.1 bitmapC6 4 7 9 (by decide) (by decide)⟩

/-! ### Comparison (claims C7, C10) -/

theorem foldl_add_eq_sum (f : Nat → Nat) : ∀ (l : List Nat) (n : Nat),
    l.foldl (fun acc i => acc + f i) n = n + (l.map f).sum := by
  intro l
  induction l with
  | nil => intro n; simp
  | cons a t ih =>
    intro n
    show List.foldl _ (n + f a) t = _
    rw [ih]
    simp only [List.map_cons, List.sum_cons]
    omega

theorem popcount8_zero : popcount8 0 = 0 := by decide

theorem compare_eq_sum (a b : ItemBitmap) (h : a.npages = b.npages) :
    bitmap_compare a b = ((List.range a.nbytes).map
      (fun i => popcount8 ((a.data.getD i 0) ^^^ (b.data.getD i 0)))).sum := by
  unfold bitmap_compare
  rw [if_neg (fun hc => hc h), foldl_add_eq_sum, Nat.zero_add]

theorem popcount8_xor (x y : Nat) :
    popcount8 (x ^^^ y) =
      (List.range 8).countP (fun j => x.testBit j != y.testBit j) := by
  unfold popcount8
  apply List.countP_congr
  intro j _
  rw [Nat.testBit_xor]

theorem compare_eq_diffBitCount (a b : ItemBitmap) (h : a.npages = b.npages) :
    bitmap_compare a b = diffBitCount a b := by
  rw [compare_eq_sum a b h]
  unfold diffBitCount
  generalize a.nbytes = n
  induction n with
  | zero => simp
  | succ n ih =>
    rw [List.range_succ, List.map_append, List.sum_append, Nat.mul_succ,
      List.range_add, List.countP_append, ← ih]
    congr 1
    simp only [List.map_cons, List.map_nil, List.sum_cons, List.sum_nil,
      List.countP_map]
    rw [Nat.add_zero, popcount8_xor]
    apply List.countP_congr
    intro j hj
    have hj8 : j < 8 := List.mem_range.mp hj
    have h1 : (8 * n + j) / 8 = n := by omega
    have h2 : (8 * n + j) % 8 = j := by omega
    simp only [Function.comp]
    rw [h1, h2]

/-- C7 (amended): `Compare` is symmetric for bitmaps with equal byte counts
(the diff loop runs over the first argument's `nbytes`); `Compare(a, a) = 0`
for every bitmap; and for bitmaps with identical page layout, `Compare`
returns exactly the number of differing bit positions among the `8 * nbytes`
addressable bits. -/
theorem c7_compare_properties :
    (∀ a b : ItemBitmap, a.nbytes = b.nbytes →
      bitmap_compare a b = bitmap_compare b a) ∧
    (∀ a : ItemBitmap, bitmap_compare a a = 0) ∧
    (∀ (a b : ItemBitmap) (k : Nat), a.npages = b.npages →
      a.pages = b.pages → diffBitCount a b = k → bitmap_compare a b = k) := by
  refine ⟨?_, ?_, ?_⟩
  · intro a b hnb
    by_cases hp : a.npages = b.npages
    · rw [compare_eq_sum a b hp, compare_eq_sum b a hp.symm, hnb]
      congr 1
      apply List.map_congr_left
      intro i _
      rw [Nat.xor_comm]
    · unfold bitmap_compare
      rw [if_pos hp, if_pos (fun hc => hp hc.symm), Nat.max_comm]
  · intro a
    rw [compare_eq_sum a a rfl]
    simp [Nat.xor_self, popcount8_zero]
  · intro a b k hp _ hd
    rw [compare_eq_diffBitCount a b hp, hd]

/-- One-page bitmap with 16 items and bit 15 set (2 valid bytes). -/
def bitmapC7a : ItemBitmap :=
  (bitmap_set_item (registerAll (bitmap_init 1) [16] 0) 0 15 true).1

/-- One-page bitmap with 8 items and no bit set (1 valid byte). -/
def bitmapC7b : ItemBitmap := registerAll (bitmap_init 1) [8] 0

/-- Same layout as `bitmapC7a` but with bit 3 set instead. -/
def bitmapC7c : ItemBitmap :=
  (bitmap_set_item (registerAll (bitmap_init 1) [16] 0) 0 3 true).1

theorem c7_counterexample :
    bitmap_compare bitmapC7a bitmapC7b = 1 ∧
    bitmap_compare bitmapC7b bitmapC7a = 0 := by decide

theorem c7_witness :
    bitmapC7a.nbytes = bitmapC7c.nbytes ∧
    bitmap_compare bitmapC7a bitmapC7c = bitmap_compare bitmapC7c bitmapC7a ∧
    bitmap_compare bitmapC7b bitmapC7b = 0 ∧
    bitmapC7a.npages = bitmapC7c.npages ∧ bitmapC7a.pages = bitmapC7c.pages ∧
    diffBitCount bitmapC7a bitmapC7c = 2 ∧
    bitmap_compare bitmapC7a bitmapC7c = 2 :=
  ⟨by decide, c7_compare_properties.1 bitmapC7a bitmapC7c (by decide),
    c7_compare_properties.2.1 bitmapC7b, by decide, by decide, by decide,
    c7_compare_properties.2.2 bitmapC7a bitmapC7c 2 (by decide) (by decide)
      (by decide)⟩

/-- C10: when `Compare` sees a page-count mismatch it returns the max of the
entries read at (int) index `npages - 1` of the two offset tables; for a
table whose allocation length equals `npages`, that read is in bounds iff
`npages ≥ 1`, and for a bitmap constructed with `page_count = 0` the index
is -1, outside the table's range. -/
theorem c10_mismatch_reads_last_entry (a b : ItemBitmap)
    (h : a.npages ≠ b.npages) :
    (bitmap_compare a b =
      max (a.pages.getD (a.npages - 1) 0) (b.pages.getD (b.npages - 1) 0)) ∧
    (∀ x : ItemBitmap, x.pages.length = x.npages →
      ((0 ≤ lastOffsetIndex x ∧
        lastOffsetIndex x < (x.pages.length : Int)) ↔ 1 ≤ x.npages)) ∧
    ((bitmap_init 0).pages.length = 0 ∧
      lastOffsetIndex (bitmap_init 0) = -1 ∧
      ¬ (0 ≤ lastOffsetIndex (bitmap_init 0) ∧
        lastOffsetIndex (bitmap_init 0) <
          (((bitmap_init 0).pages.length : Nat) : Int))) := by
  refine ⟨?_, ?_, by decide, by decide, by decide⟩
  · unfold bitmap_compare
    rw [if_pos h]
  · intro x hx
    unfold lastOffsetIndex
    rw [hx]
    omega

theorem c10_witness :
    (bitmap_init 0).npages ≠ (bitmap_init 1).npages ∧
    bitmap_compare (bitmap_init 0) (bitmap_init 1) =
      max ((bitmap_init 0).pages.getD ((bitmap_init 0).npages - 1) 0)
        ((bitmap_init 1).pages.getD ((bitmap_init 1).npages - 1) 0) :=
  ⟨by decide,
    (c10_mismatch_reads_last_entry (bitmap_init 0) (bitmap_init 1)
      (by decide)).1⟩

/-! ### base64 serialization (claim C9) -/

theorem land_63_eq_mod (x : Nat) : x &&& 63 = x % 64 := by
  have h1 : (63 : Nat) = 2 ^ 6 - 1 := by norm_num
  have h2 : (64 : Nat) = 2 ^ 6 := by norm_num
  rw [h1, h2, Nat.and_pow_two_sub_one_eq_mod]

theorem shiftLeft_lor_eq_add (x y k : Nat) (hy : y < 2 ^ k) :
    (x <<< k) ||| y = x * 2 ^ k + y := by
  rw [Nat.shiftLeft_eq, Nat.mul_comm]
  exact (Nat.mul_add_lt_is_or hy x).symm

/-- For a byte below 0x80 the `int` promotion is the byte itself, and for
the shift distances the loop uses (0, 8 or 16 bits) the shifted value fits
in 32 bits, so the `% 2^32` reduction is the identity. -/
theorem signExt_small (d s : Nat) (hd : d < 128) (hs : 2 ^ s ≤ 65536) :
    (signExtByte d <<< s) % 4294967296 = d <<< s := by
  unfold signExtByte
  rw [if_pos hd, Nat.shiftLeft_eq]
  apply Nat.mod_eq_of_lt
  calc d * 2 ^ s ≤ 127 * 65536 := Nat.mul_le_mul (by omega) hs
  _ < 4294967296 := by norm_num

theorem buf1_eq (a : Nat) : (0 ||| (a <<< (2 * 8))) = a * 65536 := by
  rw [Nat.zero_or, Nat.shiftLeft_eq]

theorem buf2_eq (a b : Nat) (hb : b < 256) :
    ((0 ||| (a <<< (2 * 8))) ||| (b <<< (1 * 8))) = a * 65536 + b * 256 := by
  rw [Nat.zero_or]
  have hble : (b <<< (1 * 8)) < 2 ^ (2 * 8) := by
    rw [Nat.shiftLeft_eq]
    norm_num
    omega
  rw [shiftLeft_lor_eq_add a (b <<< (1 * 8)) (2 * 8) hble, Nat.shiftLeft_eq]
  norm_num

theorem buf3_eq (a b c : Nat) (hb : b < 256) (hc : c < 256) :
    (((0 ||| (a <<< (2 * 8))) ||| (b <<< (1 * 8))) ||| (c <<< (0 * 8))) =
      a * 65536 + b * 256 + c := by
  rw [buf2_eq a b hb]
  have h0 : c <<< (0 * 8) = c := by
    rw [Nat.shiftLeft_eq]
    norm_num
  rw [h0]
  have h2 : a * 65536 + b * 256 = 2 ^ 8 * (a * 256 + b) := by ring
  rw [h2]
  exact (Nat.mul_add_lt_is_or (by omega : c < 2 ^ 8) (a * 256 + b)).symm

theorem sextet3_1 (a b c : Nat) (ha : a < 256) (hb : b < 256) (hc : c < 256) :
    (((a * 65536 + b * 256 + c) >>> 18) &&& 63) = a / 4 := by
  rw [Nat.shiftRight_eq_div_pow, land_63_eq_mod]
  have h : (2 : Nat) ^ 18 = 262144 := by norm_num
  rw [h]
  omega

theorem sextet3_2 (a b c : Nat) (ha : a < 256) (hb : b < 256) (hc : c < 256) :
    (((a * 65536 + b * 256 + c) >>> 12) &&& 63) = (a % 4) * 16 + b / 16 := by
  rw [Nat.shiftRight_eq_div_pow, land_63_eq_mod]
  have h : (2 : Nat) ^ 12 = 4096 := by norm_num
  rw [h]
  omega

theorem sextet3_3 (a b c : Nat) (ha : a < 256) (hb : b < 256) (hc : c < 256) :
    (((a * 65536 + b * 256 + c) >>> 6) &&& 63) = (b % 16) * 4 + c / 64 := by
  rw [Nat.shiftRight_eq_div_pow, land_63_eq_mod]
  have h : (2 : Nat) ^ 6 = 64 := by norm_num
  rw [h]
  omega

theorem sextet3_4 (a b c : Nat) (ha : a < 256) (hb : b < 256) (hc : c < 256) :
    ((a * 65536 + b * 256 + c) &&& 63) = c % 64 := by
  rw [land_63_eq_mod]
  omega

theorem sextet2_1 (a b : Nat) (ha : a < 256) (hb : b < 256) :
    (((a * 65536 + b * 256) >>> 18) &&& 63) = a / 4 := by
  rw [Nat.shiftRight_eq_div_pow, land_63_eq_mod]
  have h : (2 : Nat) ^ 18 = 262144 := by norm_num
  rw [h]
  omega

theorem sextet2_2 (a b : Nat) (ha : a < 256) (hb : b < 256) :
    (((a * 65536 + b * 256) >>> 12) &&& 63) = (a % 4) * 16 + b / 16 := by
  rw [Nat.shiftRight_eq_div_pow, land_63_eq_mod]
  have h : (2 : Nat) ^ 12 = 4096 := by norm_num
  rw [h]
  omega

theorem sextet2_3 (a b : Nat) (ha : a < 256) (hb : b < 256) :
    (((a * 65536 + b * 256) >>> 6) &&& 63) = (b % 16) * 4 := by
  rw [Nat.shiftRight_eq_div_pow, land_63_eq_mod]
  have h : (2 : Nat) ^ 6 = 64 := by norm_num
  rw [h]
  omega

theorem sextet1_1 (a : Nat) (ha : a < 256) :
    (((a * 65536) >>> 18) &&& 63) = a / 4 := by
  rw [Nat.shiftRight_eq_div_pow, land_63_eq_mod]
  have h : (2 : Nat) ^ 18 = 262144 := by norm_num
  rw [h]
  omega

theorem sextet1_2 (a : Nat) (ha : a < 256) :
    (((a * 65536) >>> 12) &&& 63) = (a % 4) * 16 := by
  rw [Nat.shiftRight_eq_div_pow, land_63_eq_mod]
  have h : (2 : Nat) ^ 12 = 4096 := by norm_num
  rw [h]
  omega

theorem base64go_eq_unpadded : ∀ (data : List Nat), (∀ d ∈ data, d < 128) →
    base64go data 0 2 = base64Unpadded data
  | [], _ => rfl
  | [a], h => by
    have ha : a < 128 := h a (by simp)
    show [b64char (((0 ||| ((signExtByte a <<< (2 * 8)) % 4294967296)) >>> 18) &&& 63),
      b64char (((0 ||| ((signExtByte a <<< (2 * 8)) % 4294967296)) >>> 12) &&& 63)] = _
    rw [signExt_small a (2 * 8) ha (by norm_num), buf1_eq,
      sextet1_1 a (by omega), sextet1_2 a (by omega)]
    rfl
  | [a, b], h => by
    have ha : a < 128 := h a (by simp)
    have hb : b < 128 := h b (by simp)
    show [b64char ((((0 ||| ((signExtByte a <<< (2 * 8)) % 4294967296)) |||
        ((signExtByte b <<< (1 * 8)) % 4294967296)) >>> 18) &&& 63),
      b64char ((((0 ||| ((signExtByte a <<< (2 * 8)) % 4294967296)) |||
        ((signExtByte b <<< (1 * 8)) % 4294967296)) >>> 12) &&& 63),
      b64char ((((0 ||| ((signExtByte a <<< (2 * 8)) % 4294967296)) |||
        ((signExtByte b <<< (1 * 8)) % 4294967296)) >>> 6) &&& 63)] = _
    rw [signExt_small a (2 * 8) ha (by norm_num),
      signExt_small b (1 * 8) hb (by norm_num), buf2_eq a b (by omega),
      sextet2_1 a b (by omega) (by omega), sextet2_2 a b (by omega) (by omega),
      sextet2_3 a b (by omega) (by omega)]
    rfl
  | a :: b :: c :: rest, h => by
    have ha : a < 128 := h a (by simp)
    have hb : b < 128 := h b (by simp)
    have hc : c < 128 := h c (by simp)
    have hrest : ∀ d ∈ rest, d < 128 := fun d hd => h d (by simp [hd])
    show b64char (((((0 ||| ((signExtByte a <<< (2 * 8)) % 4294967296)) |||
        ((signExtByte b <<< (1 * 8)) % 4294967296)) |||
        ((signExtByte c <<< (0 * 8)) % 4294967296)) >>> 18) &&& 63) ::
      b64char (((((0 ||| ((signExtByte a <<< (2 * 8)) % 4294967296)) |||
        ((signExtByte b <<< (1 * 8)) % 4294967296)) |||
        ((signExtByte c <<< (0 * 8)) % 4294967296)) >>> 12) &&& 63) ::
      b64char (((((0 ||| ((signExtByte a <<< (2 * 8)) % 4294967296)) |||
        ((signExtByte b <<< (1 * 8)) % 4294967296)) |||
        ((signExtByte c <<< (0 * 8)) % 4294967296)) >>> 6) &&& 63) ::
      b64char ((((0 ||| ((signExtByte a <<< (2 * 8)) % 4294967296)) |||
        ((signExtByte b <<< (1 * 8)) % 4294967296)) |||
        ((signExtByte c <<< (0 * 8)) % 4294967296)) &&& 63) ::
      base64go rest 0 2 = _
    rw [signExt_small a (2 * 8) ha (by norm_num),
      signExt_small b (1 * 8) hb (by norm_num),
      signExt_small c (0 * 8) hc (by norm_num), buf3_eq a b c (by omega) (by omega),
      sextet3_1 a b c (by omega) (by omega) (by omega),
      sextet3_2 a b c (by omega) (by omega) (by omega),
      sextet3_3 a b c (by omega) (by omega) (by omega),
      sextet3_4 a b c (by omega) (by omega) (by omega),
      base64go_eq_unpadded rest hrest]
    rfl

theorem sextets_length : ∀ (l : List Nat), (sextets l).length =
    4 * (l.length / 3) +
      (if l.length % 3 = 0 then 0 else if l.length % 3 = 1 then 2 else 3)
  | [] => rfl
  | [_] => by simp [sextets]
  | [_, _] => by simp [sextets]
  | a :: b :: c :: rest => by
    simp only [sextets, List.length_cons]
    rw [sextets_length rest]
    have hmod : (rest.length + 1 + 1 + 1) % 3 = rest.length % 3 := by omega
    simp only [hmod]
    by_cases h0 : rest.length % 3 = 0
    · simp only [h0, if_pos rfl]
      omega
    · by_cases h1 : rest.length % 3 = 1
      · simp only [h1, if_neg h0, if_pos rfl]
        omega
      · simp only [if_neg h0, if_neg h1]
        omega

theorem getD_default_of_le {α : Type} : ∀ (l : List α) (k : Nat) (d : α),
    l.length ≤ k → l.getD k d = d
  | [], k, d, _ => by simp
  | a :: t, k, d, h => by
    cases k with
    | zero => simp at h
    | succ k =>
      simp only [List.getD_cons_succ]
      exact getD_default_of_le t k d (by simpa using h)

theorem getD_mem_of_lt_gen {α : Type} : ∀ (l : List α) (k : Nat) (d : α),
    k < l.length → l.getD k d ∈ l
  | [], k, d, h => by simp at h
  | a :: t, k, d, h => by
    cases k with
    | zero => exact List.mem_cons_self a t
    | succ k =>
      simp only [List.getD_cons_succ]
      exact List.mem_cons_of_mem a (getD_mem_of_lt_gen t k d (by simpa using h))

theorem b64alphabet_length : b64alphabet.length = 64 := by decide

theorem b64char_ne_pad (k : Nat) : b64char k ≠ '=' := by
  by_cases hk : k < 64
  · unfold b64char
    interval_cases k <;> decide
  · unfold b64char
    rw [getD_default_of_le b64alphabet k 'A' (by rw [b64alphabet_length]; omega)]
    decide

theorem sextets_lt_64 : ∀ (l : List Nat), (∀ d ∈ l, d < 256) →
    ∀ s ∈ sextets l, s < 64
  | [], _ => by simp [sextets]
  | [a], h => by
    have ha : a < 256 := h a (by simp)
    intro s hs
    simp only [sextets, List.mem_cons, List.not_mem_nil, or_false] at hs
    rcases hs with rfl | rfl <;> omega
  | [a, b], h => by
    have ha : a < 256 := h a (by simp)
    have hb : b < 256 := h b (by simp)
    intro s hs
    simp only [sextets, List.mem_cons, List.not_mem_nil, or_false] at hs
    rcases hs with rfl | rfl | rfl <;> omega
  | a :: b :: c :: rest, h => by
    have ha : a < 256 := h a (by simp)
    have hb : b < 256 := h b (by simp)
    have hc : c < 256 := h c (by simp)
    have hrest : ∀ d ∈ rest, d < 256 := fun d hd => h d (by simp [hd])
    intro s hs
    simp only [sextets, List.mem_cons] at hs
    rcases hs with rfl | rfl | rfl | rfl | hs
    · omega
    · omega
    · omega
    · omega
    · exact sextets_lt_64 rest hrest s hs

/-- C9 (amended): for byte buffers whose bytes are all below 0x80 (so the
signed-`char` promotion is value-preserving), the base64 serializer produces
the *unpadded* standard base64 rendering: the standard-alphabet characters
of the 6-bit groups, with output length `4 * (n / 3)` plus 2 when
`n % 3 = 1` and 3 when `n % 3 = 2`, and no `=` padding character ever
appears (where the C code would write padding it writes a NUL, terminating
the string).  For bytes ≥ 0x80 sign extension corrupts the higher sextets
of the group (see the counterexample). -/
theorem c9_base64_unpadded (data : List Nat) (h : ∀ d ∈ data, d < 128) :
    base64 data = base64Unpadded data ∧
    (base64 data).length = 4 * (data.length / 3) +
      (if data.length % 3 = 0 then 0 else if data.length % 3 = 1 then 2 else 3) ∧
    (∀ ch ∈ base64 data, ch ∈ b64alphabet) ∧
    '=' ∉ base64 data := by
  have h256 : ∀ d ∈ data, d < 256 := fun d hd => by have := h d hd; omega
  have heq : base64 data = base64Unpadded data := base64go_eq_unpadded data h
  refine ⟨heq, ?_, ?_, ?_⟩
  · rw [heq]
    unfold base64Unpadded
    rw [List.length_map, sextets_length]
  · intro ch hch
    rw [heq] at hch
    unfold base64Unpadded at hch
    obtain ⟨s, hs, hchar⟩ := List.mem_map.mp hch
    subst hchar
    unfold b64char
    exact getD_mem_of_lt_gen b64alphabet s 'A'
      (by rw [b64alphabet_length]; exact sextets_lt_64 data h256 s hs)
  · intro hch
    rw [heq] at hch
    unfold base64Unpadded at hch
    obtain ⟨s, _, habs⟩ := List.mem_map.mp hch
    exact b64char_ne_pad s habs

theorem c9_counterexample :
    (base64 [0] = ['A', 'A'] ∧ (base64 [0]).length = 2 ∧
      4 * ((1 + 2) / 3) = 4 ∧ '=' ∉ base64 [0]) ∧
    (base64 [0, 0, 128] = ['/', '/', '+', 'A'] ∧
      base64Unpadded [0, 0, 128] = ['A', 'A', 'C', 'A'] ∧
      base64 [0, 0, 128] ≠ base64Unpadded [0, 0, 128]) := by decide

theorem c9_witness :
    (∀ d ∈ [77, 97, 110, 33], d < 128) ∧
    (base64 [77, 97, 110, 33] = base64Unpadded [77, 97, 110, 33] ∧
      (base64 [77, 97, 110, 33]).length = 4 * (([77, 97, 110, 33] : List Nat).length / 3) +
        (if ([77, 97, 110, 33] : List Nat).length % 3 = 0 then 0
         else if ([77, 97, 110, 33] : List Nat).length % 3 = 1 then 2 else 3) ∧
      (∀ ch ∈ base64 [77, 97, 110, 33], ch ∈ b64alphabet) ∧
      '=' ∉ base64 [77, 97, 110, 33]) :=
  ⟨by decide, c9_base64_unpadded [77, 97, 110, 33] (by decide)⟩
